import Mathlib

/-
Verification of the typeck core against its specification.

This file shallowly embeds the TypeScript sources of the typeck repository:

* `src/type-code.ts`  — the `TypeOp` instruction set, `TypeCode.compile` and
  `TypeCode.encode` (namespace `TypeLangM` below);
* `src/type-lang.ts`  — the `TypeLang` value language, `TypeLang.decode`,
  and the `TypeLang.Context` class with `check`, `kind`, `unwrap`, `unify`,
  `instantiate` and `defineImpl`, together with `UnityState`
  (namespace `TypeLangM`);
* `src/typecode.ts`   — the older n-ary encoder `encodeFun` / `encodeApply` /
  `_encode` over the `type-ast.ts` AST (namespace `TypeAstM`);
* the scope-tree `Context` (`define` / `enter` / `findContext`) of the
  unnamed source file `part_000` (namespace `ScopeTreeM`);
* the newer `Context.enter` of `src/context.ts` (namespace `CtxGen2M`).

Modelling conventions: TypeScript `number` ids become `Nat`; strings of
UTF-16 code units (type codes) become `List Nat`; `Map` becomes an
association list with JS `Map.set` semantics (`mapSet`); `throw` becomes
`Option.none` or a dedicated error constructor; unbounded recursion that is
not structural in the data (the decoder, the kind computation through filled
holes, and `unify` through captured instances) takes explicit fuel, and all
fuel recursion is structural so that terms reduce.  JS reference equality of
AST nodes is modelled as structural equality (`teq`), and object identity of
heap objects (contexts, scope nodes) is modelled by indices into an explicit
store.
-/

namespace TypeLangM

/-- Kinds: `TypeOp.Concrete` or `{op: TypeOp.Hkt, expr: [Kind, Kind]}`
(src/type-lang.ts, `TypeLang.Kind`). -/
inductive Kind where
  | concrete
  | hkt (a b : Kind)
deriving DecidableEq, Repr

/-- `TypeLang` values (src/type-lang.ts).  The TS union includes the kinds as
values (`TypeLang = Forall | Kind | Hole | Var | Ref | Fun | Apply`); the
`Forall.param` field is `Kind | TypeLang[]`, which we split into the two
constructors `faK` (kind parameter, including the plain-concrete case) and
`faC` (constraint-list parameter), mirroring the `Array.isArray` dispatch. -/
inductive TL where
  | kind (k : Kind)
  | faK (k : Kind) (e : TL)
  | faC (cs : List TL) (e : TL)
  | hole (id : Nat)
  | ref (id : Nat)
  | tvar (id : Nat)
  | fn (a b : TL)
  | app (a b : TL)

/-- `TypeLang.Param = Kind | TypeLang[]`. -/
abbrev TParam := Sum Kind (List TL)

-- Structural equality of `TL` values; used to model JS reference equality
-- of AST nodes in `unify` (sound on the diagonal `unify(T, T)`).
mutual
def teq : TL → TL → Bool
  | .kind a, .kind b => a == b
  | .faK k e, .faK k2 e2 => k == k2 && teq e e2
  | .faC cs e, .faC cs2 e2 => teqList cs cs2 && teq e e2
  | .hole i, .hole j => i == j
  | .ref i, .ref j => i == j
  | .tvar i, .tvar j => i == j
  | .fn a b, .fn c d => teq a c && teq b d
  | .app a b, .app c d => teq a c && teq b d
  | _, _ => false

def teqList : List TL → List TL → Bool
  | [], [] => true
  | a :: as2, b :: bs => teq a b && teqList as2 bs
  | _, _ => false
end

/-! ## TypeCode.compile and TypeCode.encode (src/type-code.ts)

`compile` is a generator.  Note two behaviours of the source that the
embedding reproduces exactly: compiling the kind `Concrete` yields nothing
(`if (ast === TypeOp.Concrete) return ast;` runs before any `yield`), and
the `Forall` case emits the parameter (kind or `Impl`-tagged constraints)
but never emits `ast.expr`.  Opcode values follow the `TypeOp` enum:
Forall 0, Concrete 1, Hkt 2, Impl 3, Hole 4, Ref 5, Var 6, Fun 7, Apply 8. -/

/-- `compile` restricted to kind values. -/
def compileK : Kind → List Nat
  | .concrete => []
  | .hkt a b => 2 :: (compileK a ++ compileK b)

mutual
/-- `TypeCode.compile` (src/type-code.ts lines 44-77). -/
def compile : TL → List Nat
  | .kind k => compileK k
  | .faK k _ => 0 :: compileK k
  | .faC cs _ => 0 :: compileConstrs cs
  | .hole i => [4, i]
  | .ref i => [5, i]
  | .tvar i => [6, i]
  | .fn a b => 7 :: (compile a ++ compile b)
  | .app a b => 8 :: (compile a ++ compile b)

/-- The `for (const impl of ast.param) { yield TypeOp.Impl; yield* compile(impl); }`
loop of the `Forall` case. -/
def compileConstrs : List TL → List Nat
  | [] => []
  | c :: rest => (3 :: compile c) ++ compileConstrs rest
end

/-- `TypeCode.encode` (src/type-code.ts lines 79-88): each instruction must
fit in 16 bits (`throw` on overflow, modelled as `none`), and is masked with
`0xffff` before being appended to the output string. -/
def encode : List Nat → Option (List Nat)
  | [] => some []
  | i :: rest =>
      if 0xffff < i then none
      else (encode rest).map fun r => (i &&& 0xffff) :: r

/-! ## TypeLang.decode (src/type-lang.ts lines 85-160)

A fuelled LL decoder over the code-unit list.  The source's `Hole` case is
`return [{ op: TypeOp.Hole, id: offset }, offset + 1]`: it uses the current
offset as the hole id and consumes only the opcode, never the id operand
that `compile` emitted. -/

mutual
def decode (code : List Nat) : Nat → Nat → Option (TL × Nat)
  | 0, _ => none
  | f + 1, offset =>
      match code.get? offset with
      | some 0 => decodeForall code f offset
      | some 4 => some (.hole offset, offset + 1)
      | some 5 => (code.get? (offset + 1)).map fun id => (.ref id, offset + 2)
      | some 6 => (code.get? (offset + 1)).map fun id => (.tvar id, offset + 2)
      | some 7 =>
          match decode code f (offset + 1) with
          | none => none
          | some (a, o0) =>
              match decode code f o0 with
              | none => none
              | some (b, o1) => some (.fn a b, o1)
      | some 8 =>
          match decode code f (offset + 1) with
          | none => none
          | some (a, o0) =>
              match decode code f o0 with
              | none => none
              | some (b, o1) => some (.app a b, o1)
      | _ => none

def decodeForall (code : List Nat) : Nat → Nat → Option (TL × Nat)
  | 0, _ => none
  | f + 1, offset =>
      match code.get? (offset + 1) with
      | some 2 =>
          match decodeHkt code f (offset + 1) with
          | none => none
          | some (k, po) =>
              match decode code f po with
              | none => none
              | some (e, eo) => some (.faK k e, eo)
      | some 3 =>
          match decodeConstrs code f (offset + 2) with
          | none => none
          | some (cs, co) =>
              match decode code f co with
              | none => none
              | some (e, eo) => some (.faC cs e, eo)
      | none => none
      | some _ =>
          match decode code f (offset + 1) with
          | none => none
          | some (e, eo) => some (.faK .concrete e, eo)

/-- The `do { ... } while (code.codePointAt(constrOffset) === TypeOp.Impl)`
loop: after a constraint is decoded, if the next unit is `Impl` the loop
re-enters `decode` at that position (pointing at the `Impl` byte itself). -/
def decodeConstrs (code : List Nat) : Nat → Nat → Option (List TL × Nat)
  | 0, _ => none
  | f + 1, offset =>
      match decode code f offset with
      | none => none
      | some (c, o2) =>
          if code.get? o2 = some 3 then
            match decodeConstrs code f o2 with
            | none => none
            | some (cs, o3) => some (c :: cs, o3)
          else some ([c], o2)

def decodeHkt (code : List Nat) : Nat → Nat → Option (Kind × Nat)
  | 0, _ => none
  | f + 1, offset =>
      match decodeKind code f (offset + 1) with
      | none => none
      | some (k0, o0) =>
          match decodeKind code f o0 with
          | none => none
          | some (k1, o1) => some (.hkt k0 k1, o1)

def decodeKind (code : List Nat) : Nat → Nat → Option (Kind × Nat)
  | 0, _ => none
  | f + 1, offset =>
      match code.get? offset with
      | some 1 => some (.concrete, offset + 1)
      | some 2 => decodeHkt code f offset
      | _ => none
end

/-! ## TypeLang.Context (src/type-lang.ts lines 232-607)

The context owns `_datatypes`, `_holes` (threaded explicitly, since `unify`
mutates it) and `_impls` (a two-level map `TraitCode -> TypeCode -> impl`).
`_traits` is written by `defineTrait` but never read by the operations
verified here, so it is omitted.  A `TraitImpl` is an opaque object; we tag
impls with a `Nat` so that distinct impls can be told apart. -/

/-- `TypeLang.Datatype`: name and parameter list. -/
structure Datatype where
  name : String
  params : List TParam

/-- The hole-assignment map `_holes : Map<number, TypeLang>`. -/
abbrev Holes := List (Nat × TL)

/-- JS `Map.set` on an association list: replace in place, else append. -/
def mapSet {κ β : Type} [BEq κ] (k : κ) (v : β) : List (κ × β) → List (κ × β)
  | [] => [(k, v)]
  | (k2, v2) :: rest => if k2 == k then (k2, v) :: rest else (k2, v2) :: mapSet k v rest

/-- The immutable part of `TypeLang.Context`. -/
structure TCtx where
  datatypes : List (Nat × Datatype)
  impls : List (List Nat × List (List Nat × Nat))

/-- `Context._paramToKind`: a constrained parameter is concrete, otherwise
the parameter is its explicit kind. -/
def paramToKind : TParam → Kind
  | .inl k => k
  | .inr _ => .concrete

/-- `Context._paramsToHkt`: curried kind arrow of a datatype parameter list. -/
def paramsToHkt : List TParam → Kind
  | [] => .concrete
  | [p] => .hkt (paramToKind p) .concrete
  | p :: rest => .hkt (paramToKind p) (paramsToHkt rest)

/-- `Context.kind` (src/type-lang.ts lines 340-397), fuelled because the
`Hole` case recurses through the assignment map.  Outer `none` models a JS
`throw` (kinds have no kind; undefined `Ref`; applying a concrete head) or
fuel exhaustion; `some none` models the JS `undefined` result. -/
def kindF (ctx : TCtx) (holes : Holes) : Nat → TL → List TParam → Option (Option Kind)
  | 0, _, _ => none
  | f + 1, ast, ps =>
      match ast with
      | .kind _ => none
      | .faK _ _ => some (some .concrete)
      | .faC _ _ => some (some .concrete)
      | .fn _ _ => some (some .concrete)
      | .tvar i =>
          match ps.get? i with
          | none => some none
          | some p => some (some (paramToKind p))
      | .hole i =>
          match holes.lookup i with
          | none => some none
          | some t => kindF ctx holes f t ps
      | .ref i =>
          match ctx.datatypes.lookup i with
          | none => none
          | some d => some (some (paramsToHkt d.params))
      | .app h _ =>
          match kindF ctx holes f h ps with
          | none => none
          | some none => some none
          | some (some .concrete) => none
          | some (some (.hkt _ y)) => some (some y)

/-- The `for (const constr of param)` loop of `Context.check`'s `Forall`
case, with the recursive checker passed in. -/
def checkEach (rec : TL → List TParam → Option Bool) : List TL → List TParam → Option Bool
  | [], _ => some true
  | c :: rest, ps =>
      match rec c ps with
      | none => none
      | some false => some false
      | some true => checkEach rec rest ps

/-- `Context.check` (src/type-lang.ts lines 266-323).  The `Apply` case
mirrors the source exactly: after both children check, the head kind must be
defined and non-concrete, the argument kind must be defined, and the result
is `headTc !== argTc` — the encoded code of the whole head kind compared,
for inequality, with the encoded code of the argument kind. -/
def check (ctx : TCtx) (holes : Holes) : Nat → TL → List TParam → Option Bool
  | 0, _, _ => none
  | f + 1, ast, ps =>
      match ast with
      | .kind _ => some true
      | .faK k e => check ctx holes f e (.inl k :: ps)
      | .faC cs e =>
          match checkEach (check ctx holes f) cs ps with
          | none => none
          | some false => some false
          | some true => check ctx holes f e (.inr cs :: ps)
      | .hole _ => none
      | .ref i => some (ctx.datatypes.lookup i).isSome
      | .tvar i => some (decide (i < ps.length))
      | .fn a b =>
          match check ctx holes f a ps with
          | none => none
          | some false => some false
          | some true => check ctx holes f b ps
      | .app h a =>
          match check ctx holes f h ps with
          | none => none
          | some false => some false
          | some true =>
              match check ctx holes f a ps with
              | none => none
              | some false => some false
              | some true =>
                  match kindF ctx holes f h ps with
                  | none => none
                  | some none => some false
                  | some (some .concrete) => some false
                  | some (some (.hkt x y)) =>
                      match kindF ctx holes f a ps with
                      | none => none
                      | some none => some false
                      | some (some ak) =>
                          match encode (compile (.kind (.hkt x y))),
                                encode (compile (.kind ak)) with
                          | some htc, some atc => some (decide (htc ≠ atc))
                          | _, _ => none

/-- `Context.unwrap`'s peeling loop: push the parameter of the current
`Forall`, descend into its body, repeat while the body is a `Forall`. -/
def unwrapGo : TL → List TParam → TL × List TParam
  | .faK k e, acc => unwrapGo e (acc ++ [Sum.inl k])
  | .faC cs e, acc => unwrapGo e (acc ++ [Sum.inr cs])
  | t, acc => (t, acc)

/-- `Context.unwrap` (src/type-lang.ts lines 327-337); `none` models the
`throw` on a non-`Forall` argument. -/
def unwrap : TL → Option (TL × List TParam)
  | .faK k e => some (unwrapGo e [Sum.inl k])
  | .faC cs e => some (unwrapGo e [Sum.inr cs])
  | _ => none

/-- Lookup in the two-level impl index: `_impls.get(traitTc)?.get(typeTc)`. -/
def implLookup (ctx : TCtx) (trc tc : List Nat) : Option Nat :=
  (ctx.impls.lookup trc).bind fun inner => inner.lookup tc

/-- The constraint loop of `Context.instantiate`: each constraint's code
must key an impl for the candidate's code; the first missing impl returns
`false`. -/
def instantiateConstrs (ctx : TCtx) (ttc : List Nat) : List TL → Option Bool
  | [] => some true
  | c :: rest =>
      match encode (compile c) with
      | none => none
      | some trc =>
          match implLookup ctx trc ttc with
          | none => some false
          | some _ => instantiateConstrs ctx ttc rest

/-- `Context.instantiate` (src/type-lang.ts lines 578-606). -/
def instantiate (ctx : TCtx) (holes : Holes) (f : Nat) (p : TParam) (t : TL)
    (ps : List TParam) : Option Bool :=
  match p with
  | .inr cs =>
      match encode (compile t) with
      | none => none
      | some ttc => instantiateConstrs ctx ttc cs
  | .inl k =>
      match kindF ctx holes f t ps with
      | none => none
      | some none => none
      | some (some tk) =>
          match encode (compile (.kind k)), encode (compile (.kind tk)) with
          | some ptc, some ttc2 => some (decide (ptc = ttc2))
          | _, _ => none

/-- `TypeLang.UnityState` (src/type-lang.ts lines 214-230): two parameter
stacks and two captured-instance tables.  The captured tables are JS sparse
arrays indexed by parameter slot; an association list models them. -/
structure UState where
  lp : List TParam
  rp : List TParam
  lc : List (Nat × List TL)
  rc : List (Nat × List TL)

/-- `UnityState.swap`: exchange the lhs and rhs sides. -/
def UState.swap (s : UState) : UState := ⟨s.rp, s.lp, s.rc, s.lc⟩

/-- `UnityState.empty`. -/
def UState.empty : UState := ⟨[], [], [], []⟩

/-- Outcome of a `unify` call: boolean result with the final state and hole
map, a JS `throw` (`err`), or fuel exhaustion (`spin`, an artifact of the
embedding). -/
inductive UOut where
  | ok (b : Bool) (s : UState) (holes : Holes)
  | err
  | spin

/-- Just the boolean outcome of a `unify` call. -/
def UOut.resB : UOut → Option Bool
  | .ok b _ _ => some b
  | _ => none

/-- Outcome of the captured-instance loop inside the variable branch. -/
inductive CapRes where
  | ok (holes : Holes)
  | failFalse (holes : Holes)
  | failErr
  | failSpin

/-- The `for (const x of instances)` loop of `unify`'s variable branch: each
previously captured instance is unified with `rhs` under a fresh empty
state; the hole map threads through. -/
def capLoop (rec : TL → TL → UState → Holes → UOut) (rhs : TL) :
    List TL → Holes → CapRes
  | [], hs => .ok hs
  | x :: xs, hs =>
      match rec x rhs UState.empty hs with
      | .ok true _ h2 => capLoop rec rhs xs h2
      | .ok false _ h2 => .failFalse h2
      | .err => .failErr
      | .spin => .failSpin

/-- The unbound-variable branch of `unify` (src/type-lang.ts lines 423-455):
initialise the instance list if absent, instantiate the parameter with
`rhs`, unify `rhs` with every previously captured instance, then record
`rhs` as a new capture.  The caller guarantees `i < s.lp.length`. -/
def unifyVarCase (ctx : TCtx) (f : Nat) (rec : TL → TL → UState → Holes → UOut)
    (i : Nat) (rhs : TL) (s : UState) (hs : Holes) : UOut :=
  let instances := (s.lc.lookup i).getD []
  let lc2 := if (s.lc.lookup i).isSome then s.lc else mapSet i [] s.lc
  let s2 : UState := ⟨s.lp, s.rp, lc2, s.rc⟩
  match s.lp.get? i with
  | none => .err
  | some p =>
      match instantiate ctx hs f p rhs s.rp with
      | none => .err
      | some false => .ok false s2 hs
      | some true =>
          match capLoop rec rhs instances hs with
          | .failErr => .err
          | .failSpin => .spin
          | .failFalse h2 => .ok false s2 h2
          | .ok h2 =>
              .ok true ⟨s.lp, s.rp, mapSet i (instances ++ [rhs]) lc2, s.rc⟩ h2

/-- Discriminators mirroring `isKind`, `isForall`, `isFun`, `isHole`. -/
def isKindB : TL → Bool
  | .kind _ => true
  | _ => false

def isFaB : TL → Bool
  | .faK _ _ => true
  | .faC _ _ => true
  | _ => false

def isFnB : TL → Bool
  | .fn _ _ => true
  | _ => false

def isHoleB : TL → Bool
  | .hole _ => true
  | _ => false

/-- The `op` tag of a value, for the `lhs.op !== rhs.op` comparison. -/
def opTag : TL → Nat
  | .kind .concrete => 1
  | .kind (.hkt _ _) => 2
  | .faK _ _ => 0
  | .faC _ _ => 0
  | .hole _ => 4
  | .ref _ => 5
  | .tvar _ => 6
  | .fn _ _ => 7
  | .app _ _ => 8

/-- Body of `Context.unify` after the unbound-variable branch
(src/type-lang.ts lines 457-573), with the recursive calls abstracted as
`rec` so that the fuelled wrapper below stays structurally recursive.
`state.swap()` shares the underlying captured tables in JS, so a recursive
call made under the swapped state is followed by re-swapping the state it
returns. -/
def unifyCore (rec : TL → TL → UState → Holes → UOut) (lhs rhs : TL)
    (s : UState) (hs : Holes) : UOut :=
  if isKindB lhs || isKindB rhs then .err
  else if isFaB lhs || isFaB rhs then
    match unwrap lhs, unwrap rhs with
    | some (lres, lps), some (rres, rps) =>
        if !isFnB lres || !isFnB rres then
          if teq lres rres then .ok true s hs else .ok false s hs
        else
          match rec lres rres ⟨s.lp ++ lps, s.rp ++ rps, s.lc, s.rc⟩ hs with
          | .ok b st h2 => .ok b ⟨s.lp, s.rp, st.lc, st.rc⟩ h2
          | o => o
    | _, _ => .err
  else if isHoleB lhs || isHoleB rhs then
    match lhs, rhs with
    | .hole li, .hole ri =>
        if li = ri then .ok true s hs
        else
          match hs.lookup li, hs.lookup ri with
          | none, none => .ok false s hs
          | none, some rv => .ok true s (mapSet li rv hs)
          | some lv, none => .ok true s (mapSet ri lv hs)
          | some _, some _ => .ok true s hs
    | _, _ => .err
  else if opTag lhs ≠ opTag rhs then .ok false s hs
  else
    match lhs, rhs with
    | .ref li, .ref ri => if li = ri then .ok true s hs else .ok false s hs
    | .tvar _, .tvar _ => .ok false s hs
    | .fn x y, .fn a b =>
        match rec a x s.swap hs with
        | .ok true st h2 => rec y b st.swap h2
        | .ok false st h2 => .ok false st.swap h2
        | o => o
    | .app l0 l1, .app r0 r1 =>
        match rec l0 r0 s hs with
        | .ok true st h2 => rec l1 r1 st h2
        | .ok false st h2 => .ok false st h2
        | o => o
    | _, _ => .err

/-- `Context.unify` (src/type-lang.ts lines 420-574), fuelled.  The
unbound-variable branch fires when the left-hand side is a `Var` whose index
is inside the lhs parameter stack; everything else is `unifyCore`. -/
def unify (ctx : TCtx) : Nat → TL → TL → UState → Holes → UOut
  | 0, _, _, _, _ => .spin
  | f + 1, lhs, rhs, s, hs =>
      match lhs with
      | .tvar i =>
          if i < s.lp.length then unifyVarCase ctx f (unify ctx f) i rhs s hs
          else unifyCore (unify ctx f) (.tvar i) rhs s hs
      | _ => unifyCore (unify ctx f) lhs rhs s hs

/-- `Context.defineImpl` (src/type-lang.ts lines 253-263): canonicalize both
keys via `encode (compile _)` and insert into the two-level map.  There is
no occupancy check: an existing entry at the same pair of codes is
overwritten by `Map.set`. -/
def defineImpl (ctx : TCtx) (type trait : TL) (impl : Nat) : Option TCtx :=
  match encode (compile type), encode (compile trait) with
  | some typeTc, some traitTc =>
      let inner := (ctx.impls.lookup traitTc).getD []
      some { ctx with impls := mapSet traitTc (mapSet typeTc impl inner) ctx.impls }
  | _, _ => none

/-! ## Auxiliary notions for the stated properties -/

/-- A `unify` outcome is a success with result `true`. -/
def resTrue (o : UOut) : Prop := ∃ st hs2, o = UOut.ok true st hs2

/-- Proper type expressions for the reflexivity property: no `Var` occurrence
and no bare kind in type position (kinds inside `Forall` parameters are
allowed; `unify` never recurses into them). -/
def plain : TL → Bool
  | .kind _ => false
  | .tvar _ => false
  | .hole _ => true
  | .ref _ => true
  | .fn a b => plain a && plain b
  | .app a b => plain a && plain b
  | .faK _ e => plain e
  | .faC _ e => plain e

/-- Nesting depth of a type expression, bounding the fuel `unify` needs. -/
def dep : TL → Nat
  | .kind _ => 1
  | .tvar _ => 1
  | .hole _ => 1
  | .ref _ => 1
  | .fn a b => 1 + max (dep a) (dep b)
  | .app a b => 1 + max (dep a) (dep b)
  | .faK _ e => 1 + dep e
  | .faC _ e => 1 + dep e

/-- A context with no datatypes and no impls. -/
def ctxEmpty : TCtx := ⟨[], []⟩

/-- Context for the `Apply` kind-check evaluation: datatype 0 (`D`) has one
parameter of kind `* -> *`, datatype 1 (`E`) has no parameters. -/
def ctxC2 : TCtx :=
  ⟨[(0, ⟨"D", [Sum.inl (Kind.hkt .concrete .concrete)]⟩), (1, ⟨"E", []⟩)], []⟩

/-- The type `forall a : *. a -> a -> a`, whose bound variable occurs in two
parameter positions. -/
def tSelf : TL := .faK .concrete (.fn (.tvar 0) (.fn (.tvar 0) (.tvar 0)))

/-- A context whose impl index holds an impl for trait code `[5, 9]` (the
code of `Ref 9`) at type code `[5, 1]` (the code of `Ref 1`). -/
def ctxImpl : TCtx := ⟨[], [([5, 9], [([5, 1], 7)])]⟩

end TypeLangM

namespace TypeAstM

/-! ## The n-ary encoder of src/typecode.ts over the src/type-ast.ts AST

Opcode values follow the `Op` enum of src/typecode.ts: Forall 0, Exists 1,
Kind 2, Constr 3, Ref 4, Var 5, Fun 6, Apply 7.  The encoder state is
`{depth, bindings}`; `const next = { ...state }` copies `depth` by value but
shares the `bindings` map, so bindings mutations leak back to the caller:
the embedding threads the bindings map through every call and copies the
depth. -/

mutual
/-- The `Expr | FunHKT | Kind` value union of src/type-ast.ts.  `star` is
the kind `'*'`; `funHKT` is `{t: 'fun-hkt', params}`; `fnN` and `applyN`
are the n-ary `Fun` and `Apply` nodes. -/
inductive TA where
  | forAll (params : List TAParam) (expr : TA)
  | exist (params : List TAParam) (expr : TA)
  | hole (id : Nat)
  | ref (id : Nat)
  | var (id : Nat)
  | fnN (params : List TA)
  | funHKT (params : List TA)
  | star
  | applyN (head : TA) (args : List TA)

/-- `Param = ParamConstrained | ParamHigherKinded` of src/type-ast.ts. -/
inductive TAParam where
  | constrained (id : Nat) (constraints : List TACon)
  | higherKinded (id : Nat) (kind : TA)

/-- A `Constraint {id, args}` of src/type-ast.ts. -/
inductive TACon where
  | mk (id : Nat) (args : List TA)
end

/-- The shared mutable `bindings : Map<number, number>` from id to binding
depth. -/
abbrev Bnd := List (Nat × Nat)

/-- An element encoder: instruction output and updated bindings, `none` on
a `throw`. -/
abbrev EncFn := TA → Nat → Bnd → Option (List Nat × Bnd)

/-- Encode a list of values in sequence, threading bindings
(`for (const e of exprs) yield* _encode(e, state)`). -/
def encSeq (rec : EncFn) : List TA → Nat → Bnd → Option (List Nat × Bnd)
  | [], _, b => some ([], b)
  | e :: rest, d, b =>
      match rec e d b with
      | none => none
      | some (l, b2) => (encSeq rec rest d b2).map fun p => (l ++ p.1, p.2)

/-- `encodeApply` (src/typecode.ts lines 46-59): fewer than two values is an
error; emit `exprs.length - 1` `Apply` opcodes, then every value. -/
def encodeApply (rec : EncFn) (exprs : List TA) (d : Nat) (b : Bnd) :
    Option (List Nat × Bnd) :=
  if exprs.length < 2 then none
  else (encSeq rec exprs d b).map fun p =>
    (List.replicate (exprs.length - 1) 7 ++ p.1, p.2)

/-- The loop of `encodeFun`: for each of the first `n - 1` values emit the
prefix opcode followed by that value's encoding, then encode the last value
with no prefix. -/
def encodeFunGo (rec : EncFn) (pfx : Nat) : List TA → Nat → Bnd → Option (List Nat × Bnd)
  | [], _, b => some ([], b)
  | [e], d, b => rec e d b
  | e :: e2 :: rest, d, b =>
      match rec e d b with
      | none => none
      | some (l, b2) =>
          (encodeFunGo rec pfx (e2 :: rest) d b2).map fun p => (pfx :: (l ++ p.1), p.2)

/-- `encodeFun` (src/typecode.ts lines 61-74). -/
def encodeFun (rec : EncFn) (pfx : Nat) (exprs : List TA) (d : Nat) (b : Bnd) :
    Option (List Nat × Bnd) :=
  if exprs.length < 2 then none
  else encodeFunGo rec pfx exprs d b

/-- The constraint loop of the quantifier case: for each `{id, args}` emit
`Constr`, then the encoding of `{t:'ref', id}` alone or of
`encodeApply([ref, ...args])`. -/
def encCons (rec : EncFn) : List TACon → Nat → Bnd → Option (List Nat × Bnd)
  | [], _, b => some ([], b)
  | .mk id args :: rest, d, b =>
      let inner :=
        if args.isEmpty then rec (TA.ref id) d b
        else encodeApply rec (TA.ref id :: args) d b
      match inner with
      | none => none
      | some (l, b2) => (encCons rec rest d b2).map fun p => ((3 :: l) ++ p.1, p.2)

/-- `TAParam.id`. -/
def TAParam.pid : TAParam → Nat
  | .constrained id _ => id
  | .higherKinded id _ => id

/-- The parameter loop of the quantifier case: per parameter, increment the
depth, record the binding, emit the quantifier opcode and the parameter
payload; returns the final depth and bindings used for the body. -/
def encParams (rec : EncFn) (op : Nat) : List TAParam → Nat → Bnd → Option (List Nat × Nat × Bnd)
  | [], d, b => some ([], d, b)
  | p :: rest, d, b =>
      let d2 := d + 1
      let b2 := TypeLangM.mapSet p.pid d2 b
      let payload :=
        match p with
        | .higherKinded _ k => rec k d2 b2
        | .constrained _ cs => encCons rec cs d2 b2
      match payload with
      | none => none
      | some (l, b3) =>
          (encParams rec op rest d2 b3).map fun q => ((op :: l) ++ q.1, q.2.1, q.2.2)

/-- `_encode` (src/typecode.ts lines 80-143), fuelled; the fuel only bounds
nesting depth and every recursive call decrements it.  The `var` case is
`state.depth - param` (a `throw` when the variable is unbound). -/
def encA : Nat → TA → Nat → Bnd → Option (List Nat × Bnd)
  | 0, _, _, _ => none
  | f + 1, e, d, b =>
      match e with
      | .star => some ([2], b)
      | .forAll ps body =>
          match encParams (encA f) 0 ps d b with
          | none => none
          | some (lp, d2, b2) =>
              (encA f body d2 b2).map fun p => (lp ++ p.1, p.2)
      | .exist ps body =>
          match encParams (encA f) 1 ps d b with
          | none => none
          | some (lp, d2, b2) =>
              (encA f body d2 b2).map fun p => (lp ++ p.1, p.2)
      | .hole _ => none
      | .ref id => some ([4, id], b)
      | .var id =>
          match b.lookup id with
          | none => none
          | some pd => some ([5, d - pd], b)
      | .fnN ps => encodeFun (encA f) 6 ps d b
      | .funHKT ps =>
          (encodeFun (encA f) 6 ps d b).map fun p => (p.1 ++ [2], p.2)
      | .applyN head args => encodeApply (encA f) (head :: args) d b

/-- `encode(expr)` (src/typecode.ts lines 76-78): run `_encode` with depth 0
and empty bindings. -/
def encodeA (f : Nat) (e : TA) : Option (List Nat) :=
  (encA f e 0 []).map Prod.fst

/-- Per-element encodings of a list of values, threading bindings; used to
state how `encodeFun` arranges its output. -/
def encEach (rec : EncFn) : List TA → Nat → Bnd → Option (List (List Nat) × Bnd)
  | [], _, b => some ([], b)
  | e :: rest, d, b =>
      match rec e d b with
      | none => none
      | some (l, b2) => (encEach rec rest d b2).map fun p => (l :: p.1, p.2)

end TypeAstM

namespace ScopeTreeM

/-! ## The scope-tree Context of the unnamed source file part_000

Object identity of AST nodes and of contexts is modelled with explicit
stores: a node is a `Nat` key into `World.nodes`, a context is an index into
`World.ctxs`.  Only the fields read or written by `define`, `enter` and
`findContext` are modelled (`_vars` and `_normalizeCache` are used by other
methods only).  The TS `hole` case of `AST.Hole` ids and the value/type
name spaces follow part_000 lines 21-94. -/

/-- The `t` tags of the AST nodes `define` and `enter` dispatch on. -/
inductive NKind where
  | letE
  | param
  | typeAlias
  | typeData
  | typeParamHkt
  | typeParamImpl
  | block
  | funN
  | forallN
deriving DecidableEq

/-- The node fields the scope-tree operations read: tag, entity id, name,
parent pointer, and the parameter lists of `fun` and `forall` scopes (as
node keys). -/
structure Node where
  t : NKind
  id : Nat
  name : String
  parent : Option Nat
  generic : List Nat
  params : List Nat

/-- One `Context` object: root node, parent link, depth, the `{id ->
entity}` map, the two name indices, and the `{child AST -> context}` map. -/
structure Ctx where
  root : Option Nat
  parentC : Option Nat
  depth : Nat
  entities : List (Nat × Nat)
  valueNames : List (String × Nat)
  typeNames : List (String × Nat)
  children : List (Nat × Nat)

/-- The heap: node store and context store. -/
structure World where
  nodes : List (Nat × Node)
  ctxs : List Ctx

def nodeOf (w : World) (nid : Nat) : Option Node := w.nodes.lookup nid

def ctxOf (w : World) (c : Nat) : Option Ctx := w.ctxs.get? c

def setCtx (w : World) (c : Nat) (cd : Ctx) : World :=
  { w with ctxs := w.ctxs.set c cd }

/-- Value-namespace entity tags (`'let'`, `'param'`). -/
def isValueKind : NKind → Bool
  | .letE => true
  | .param => true
  | _ => false

/-- Type-namespace entity tags. -/
def isTypeKind : NKind → Bool
  | .typeAlias => true
  | .typeData => true
  | .typeParamHkt => true
  | .typeParamImpl => true
  | _ => false

/-- `Context.define` (part_000 lines 63-94).  The first check is
`this._entities.get(id) === ast` — object identity of the stored entity —
and returns without touching anything.  Otherwise a name already present in
the namespace of the entity's tag throws, else the entity is inserted into
the id map, the name index and the children map.  Tags without a switch
case fall through as a silent no-op. -/
def defineE (w : World) (c : Nat) (nid : Nat) : Except Unit World :=
  match ctxOf w c, nodeOf w nid with
  | some cd, some nd =>
      if cd.entities.lookup nd.id = some nid then .ok w
      else if isValueKind nd.t then
        if (cd.valueNames.lookup nd.name).isSome then .error ()
        else .ok (setCtx w c
          { cd with
            entities := TypeLangM.mapSet nd.id nid cd.entities
            valueNames := TypeLangM.mapSet nd.name nid cd.valueNames
            children := TypeLangM.mapSet nid c cd.children })
      else if isTypeKind nd.t then
        if (cd.typeNames.lookup nd.name).isSome then .error ()
        else .ok (setCtx w c
          { cd with
            entities := TypeLangM.mapSet nd.id nid cd.entities
            typeNames := TypeLangM.mapSet nd.name nid cd.typeNames
            children := TypeLangM.mapSet nid c cd.children })
      else .ok w
  | _, _ => .error ()

/-- `ctx.define(param)` over a parameter list, stopping at the first
throw. -/
def defineAll (w : World) (c : Nat) : List Nat → Except Unit World
  | [] => .ok w
  | nid :: rest =>
      match defineE w c nid with
      | .error e => .error e
      | .ok w2 => defineAll w2 c rest

/-- `Context.findContext` (part_000 lines 190-203), fuelled parent walk.
Note that the children lookup uses the original argument `ast` on every
iteration, exactly as in the source (`this._children.get(ast)`). -/
def findContext (w : World) (c : Nat) (n : Nat) : Nat → Option Nat → Option Nat
  | 0, _ => none
  | _, none => none
  | f + 1, some t =>
      match ctxOf w c with
      | none => none
      | some cd =>
          if cd.root = some t then some c
          else
            match cd.children.lookup n with
            | some r => some r
            | none => findContext w c n f ((nodeOf w t).bind fun nd => nd.parent)

/-- `Context.enter` (part_000 lines 96-129): return the cached context when
`findContext` finds one; otherwise construct the child (inherited depth for
`block` and `fun`, incremented depth for `forall`), define the parameters
into it, and record it in the children map.  A non-scope tag is a type
error in the source (`AST.Scope`), modelled as a throw. -/
def enter (w : World) (c : Nat) (nid : Nat) (fuel : Nat) : Except Unit (Nat × World) :=
  match findContext w c nid fuel (some nid) with
  | some r => .ok (r, w)
  | none =>
      match ctxOf w c, nodeOf w nid with
      | some cd, some nd =>
          match nd.t with
          | .block =>
              let newRef := w.ctxs.length
              let w2 := { w with ctxs := w.ctxs ++ [⟨some nid, some c, cd.depth, [], [], [], []⟩] }
              .ok (newRef, setCtx w2 c { cd with children := TypeLangM.mapSet nid newRef cd.children })
          | .funN =>
              let newRef := w.ctxs.length
              let w2 := { w with ctxs := w.ctxs ++ [⟨some nid, some c, cd.depth, [], [], [], []⟩] }
              match defineAll w2 newRef (nd.generic ++ nd.params) with
              | .error e => .error e
              | .ok w3 =>
                  .ok (newRef, setCtx w3 c { cd with children := TypeLangM.mapSet nid newRef cd.children })
          | .forallN =>
              let newRef := w.ctxs.length
              let w2 := { w with ctxs := w.ctxs ++ [⟨some nid, some c, cd.depth + 1, [], [], [], []⟩] }
              match defineAll w2 newRef nd.params with
              | .error e => .error e
              | .ok w3 =>
                  .ok (newRef, setCtx w3 c { cd with children := TypeLangM.mapSet nid newRef cd.children })
          | _ => .error ()
      | _, _ => .error ()

/-- A one-node, one-context world: a root context and a `let` entity named
`x`. -/
def wDef0 : World :=
  ⟨[(0, ⟨.letE, 0, "x", none, [], []⟩)], [⟨none, none, 0, [], [], [], []⟩]⟩

/-- `wDef0` after `define` has inserted the entity. -/
def wDef1 : World :=
  ⟨[(0, ⟨.letE, 0, "x", none, [], []⟩)],
   [⟨none, none, 0, [(0, 0)], [("x", 0)], [], [(0, 0)]⟩]⟩

/-- A world with a root context and a `block` scope node (key 5). -/
def wEnter0 : World :=
  ⟨[(5, ⟨.block, 0, "", none, [], []⟩)], [⟨none, none, 0, [], [], [], []⟩]⟩

/-- `wEnter0` after the first `enter` on node 5: the child context exists
and the root's children map records it. -/
def wEnter1 : World :=
  ⟨[(5, ⟨.block, 0, "", none, [], []⟩)],
   [⟨none, none, 0, [], [], [], [(5, 1)]⟩, ⟨some 5, some 0, 0, [], [], [], []⟩]⟩

end ScopeTreeM

namespace CtxGen2M

/-! ## The newer Context.enter of src/context.ts

`enter(domain)` unconditionally executes `new Context(this, domain)`: there
is no children cache and no `findContext`.  The parameter/hole/ctor/method
ids of the domain are inserted into `this._entities` (the parent!), and the
fresh child is returned.  Contexts are modelled as indices into a store so
that object identity is visible. -/

/-- The `AST.Type.Domain` tags. -/
inductive DKind where
  | alias
  | data
  | trait
  | forallD
  | partialD
  | fnD
deriving DecidableEq

/-- A domain node with the entity lists `enter` reads, as `(id, entity)`
pairs. -/
structure Domain where
  t : DKind
  tparams : List (Nat × Nat)
  params : List (Nat × Nat)
  holes : List (Nat × Nat)
  ctors : List (Nat × Nat)
  methods : List (Nat × Nat)

/-- One context: parent link and entity map (the other fields are not
touched by `enter`). -/
structure CtxB where
  parentB : Option Nat
  entities : List (Nat × Nat)

/-- `Context.enter` (src/context.ts lines 100-130): always allocates a new
context, then populates the parent's entity map from the domain. -/
def enterB (w : List CtxB) (c : Nat) (d : Domain) : Nat × List CtxB :=
  let inserted : List (Nat × Nat) :=
    (match d.t with
     | .partialD => d.holes
     | .fnD => d.tparams
     | _ => d.params) ++
    (match d.t with
     | .data => d.ctors
     | _ => []) ++
    (match d.t with
     | .trait => d.methods
     | _ => [])
  let w2 :=
    match w.get? c with
    | none => w
    | some cd =>
        w.set c { cd with entities := inserted.foldl (fun m p => TypeLangM.mapSet p.1 p.2 m) cd.entities }
  (w2.length, w2 ++ [⟨some c, []⟩])

/-- A parameterless `type:forall` domain. -/
def dFa : Domain := ⟨.forallD, [], [], [], [], []⟩

end CtxGen2M

/-! # Theorems -/

namespace TypeLangM

theorem lookup_mapSet_self {κ β : Type} [BEq κ] [LawfulBEq κ] (k : κ) (v : β) :
    (l : List (κ × β)) → (mapSet k v l).lookup k = some v
  | [] => by simp [mapSet, List.lookup]
  | (k2, v2) :: rest => by
      cases h : k2 == k with
      | true =>
          have hk : k = k2 := (eq_of_beq h).symm
          simp [mapSet, h, List.lookup, hk]
      | false =>
          have h2 : (k == k2) = false := by
            cases h3 : k == k2
            · rfl
            · rw [eq_of_beq h3, beq_self_eq_true] at h
              cases h
          simp only [mapSet, h, if_false, cond_false, List.lookup, h2]
          exact lookup_mapSet_self k v rest

mutual
theorem teq_refl : (t : TL) → teq t t = true
  | .kind a => by simp [teq]
  | .faK k e => by simp [teq, teq_refl e]
  | .faC cs e => by simp [teq, teq_refl e, teqList_refl cs]
  | .hole i => by simp [teq]
  | .ref i => by simp [teq]
  | .tvar i => by simp [teq]
  | .fn a b => by simp [teq, teq_refl a, teq_refl b]
  | .app a b => by simp [teq, teq_refl a, teq_refl b]

theorem teqList_refl : (l : List TL) → teqList l l = true
  | [] => by simp [teqList]
  | a :: as2 => by simp [teqList, teq_refl a, teqList_refl as2]
end

theorem UState.swap_swap (s : UState) : s.swap.swap = s := rfl

theorem unwrapGo_plain : (e : TL) → (acc : List TParam) → plain e = true →
    plain (unwrapGo e acc).1 = true
  | .faK _ e2, acc, h => by
      simp only [plain] at h
      simpa [unwrapGo] using unwrapGo_plain e2 (acc ++ [Sum.inl _]) h
  | .faC cs e2, acc, h => by
      simp only [plain] at h
      simpa [unwrapGo] using unwrapGo_plain e2 (acc ++ [Sum.inr cs]) h
  | .kind _, _, h => by simpa [unwrapGo] using h
  | .tvar _, _, h => by simpa [unwrapGo] using h
  | .hole _, _, h => by simpa [unwrapGo] using h
  | .ref _, _, h => by simpa [unwrapGo] using h
  | .fn _ _, _, h => by simpa [unwrapGo] using h
  | .app _ _, _, h => by simpa [unwrapGo] using h

theorem unwrapGo_dep : (e : TL) → (acc : List TParam) →
    dep (unwrapGo e acc).1 ≤ dep e
  | .faK k e2, acc => by
      have := unwrapGo_dep e2 (acc ++ [Sum.inl k])
      simp only [unwrapGo, dep]
      omega
  | .faC cs e2, acc => by
      have := unwrapGo_dep e2 (acc ++ [Sum.inr cs])
      simp only [unwrapGo, dep]
      omega
  | .kind _, _ => by simp [unwrapGo]
  | .tvar _, _ => by simp [unwrapGo]
  | .hole _, _ => by simp [unwrapGo]
  | .ref _, _ => by simp [unwrapGo]
  | .fn _ _, _ => by simp [unwrapGo]
  | .app _ _, _ => by simp [unwrapGo]

/-- Claim C1: for every well-formed type expression T, decoding the string
obtained by encoding T's compiled instruction sequence at offset 0 yields a
type alpha-equivalent to T, in particular preserving the id operand of
`Hole` nodes.  The code refutes this: `compile (Hole 7)` emits the operand
`7`, but `decode` returns a hole whose id is the current offset (`0`) and
consumes only one code unit, so the id does not survive and the operand is
left unconsumed. -/
theorem c1_decode_encode_hole :
    encode (compile (TL.hole 7)) = some [4, 7] ∧
    decode [4, 7] 10 0 = some (TL.hole 0, 1) ∧
    TL.hole 0 ≠ TL.hole 7 := ⟨rfl, rfl, by simp⟩

/-- Claim C2: `check` on `Apply h a` should succeed only when the head kind
is an arrow `k -> k2` whose parameter kind `k` has the same canonical code
as the kind of `a`.  The code instead returns `headTc !== argTc` — the code
of the whole head kind compared for inequality with the code of the
argument kind — and therefore accepts `Apply (Ref 0) (Ref 1)` where the
parameter kind is `* -> *` (code `[2]`) but the argument kind is `*`
(code `[]`). -/
theorem c2_apply_kind_check :
    check ctxC2 [] 10 (.app (.ref 0) (.ref 1)) [] = some true ∧
    kindF ctxC2 [] 10 (.ref 0) [] =
      some (some (.hkt (.hkt .concrete .concrete) .concrete)) ∧
    kindF ctxC2 [] 10 (.ref 1) [] = some (some .concrete) ∧
    encode (compile (.kind (.hkt .concrete .concrete))) ≠
      encode (compile (.kind .concrete)) :=
  ⟨rfl, rfl, rfl, by simp [compile, compileK, encode]⟩

/-- Claim C3, counterexample: `forall a : *. a -> a -> a` is well formed
(`check` returns true under empty parameters) but `unify` on two copies of
it under the empty state returns `false`: the variable is captured in two
parameter positions and the captured-instance check unifies `Var 0` with
`Var 0` under a fresh empty state, which hits the bound-variable failure
case. -/
theorem c3_unify_refl_counterexample :
    check ctxEmpty [] 10 tSelf [] = some true ∧
    (unify ctxEmpty 20 tSelf tSelf UState.empty []).resB = some false := ⟨rfl, rfl⟩

/-- Claim C3, amended: `unify (T, T)` returns true and leaves the state and
hole map unchanged for every type T that contains no `Var` occurrence and
no bare kind in a type position — in particular two occurrences of the same
`Ref`, the same `Hole`, and the same existential `Forall` body self-unify.
Reflexivity fails for types whose bound variable occurs in two parameter
positions (see the counterexample) and for a bare `Var`. -/
theorem c3_unify_refl_plain : ∀ (f : Nat) (t : TL) (ctx : TCtx) (s : UState) (hs : Holes),
    plain t = true → dep t ≤ f → unify ctx f t t s hs = .ok true s hs := by
  intro f
  induction f with
  | zero =>
      intro t ctx s hs _ hd
      cases t <;> simp [dep] at hd
  | succ f ih =>
      intro t ctx s hs hp hd
      cases t with
      | kind k => simp [plain] at hp
      | tvar i => simp [plain] at hp
      | hole i => simp [unify, unifyCore, isKindB, isFaB, isHoleB]
      | ref i => simp [unify, unifyCore, isKindB, isFaB, isHoleB, opTag]
      | fn a b =>
          simp only [plain, Bool.and_eq_true] at hp
          simp only [dep] at hd
          have h1 := ih a ctx s.swap hs hp.1 (by omega)
          have h2 := ih b ctx s hs hp.2 (by omega)
          simp only [unify, unifyCore, isKindB, isFaB, isHoleB, opTag]
          simp [h1, UState.swap_swap, h2]
      | app a b =>
          simp only [plain, Bool.and_eq_true] at hp
          simp only [dep] at hd
          have h1 := ih a ctx s hs hp.1 (by omega)
          have h2 := ih b ctx s hs hp.2 (by omega)
          simp only [unify, unifyCore, isKindB, isFaB, isHoleB, opTag]
          simp [h1, h2]
      | faK k e =>
          simp only [plain] at hp
          simp only [dep] at hd
          simp only [unify, unifyCore, isKindB, isFaB, isHoleB, unwrap]
          rcases hgo : unwrapGo e [Sum.inl k] with ⟨lres, lps⟩
          have hpl : plain lres = true := by
            have := unwrapGo_plain e [Sum.inl k] hp
            rwa [hgo] at this
          have hdl : dep lres ≤ f := by
            have := unwrapGo_dep e [Sum.inl k]
            rw [hgo] at this
            simp at this
            omega
          by_cases hfn : isFnB lres = true
          · have hrec := ih lres ctx ⟨s.lp ++ lps, s.rp ++ lps, s.lc, s.rc⟩ hs hpl hdl
            simp [hfn, hrec]
          · simp [hfn, teq_refl]
      | faC cs e =>
          simp only [plain] at hp
          simp only [dep] at hd
          simp only [unify, unifyCore, isKindB, isFaB, isHoleB, unwrap]
          rcases hgo : unwrapGo e [Sum.inr cs] with ⟨lres, lps⟩
          have hpl : plain lres = true := by
            have := unwrapGo_plain e [Sum.inr cs] hp
            rwa [hgo] at this
          have hdl : dep lres ≤ f := by
            have := unwrapGo_dep e [Sum.inr cs]
            rw [hgo] at this
            simp at this
            omega
          by_cases hfn : isFnB lres = true
          · have hrec := ih lres ctx ⟨s.lp ++ lps, s.rp ++ lps, s.lc, s.rc⟩ hs hpl hdl
            simp [hfn, hrec]
          · simp [hfn, teq_refl]

theorem c3_unify_refl_plain_witness :
    plain (TL.faK .concrete (.fn (.ref 1) (.ref 2))) = true ∧
    dep (TL.faK .concrete (.fn (.ref 1) (.ref 2))) ≤ 5 ∧
    unify ctxEmpty 5 (.faK .concrete (.fn (.ref 1) (.ref 2)))
      (.faK .concrete (.fn (.ref 1) (.ref 2))) UState.empty [] =
      .ok true UState.empty [] :=
  ⟨rfl, by decide, c3_unify_refl_plain 5 _ ctxEmpty UState.empty [] rfl (by decide)⟩

/-- Claim C4: unifying `Fun x y` with `Fun a b` under state `s` succeeds
with result true exactly when the parameter positions unify with sides
exchanged under the swapped state (`unify a x s.swap`) and the return
positions unify in the original orientation under the state evolved by the
first sub-unification. -/
theorem c4_fun_contravariant_unify (ctx : TCtx) (f : Nat) (x y a b : TL)
    (s : UState) (hs : Holes) :
    resTrue (unify ctx (f + 1) (.fn x y) (.fn a b) s hs) ↔
    ∃ st hs2, unify ctx f a x s.swap hs = .ok true st hs2 ∧
      resTrue (unify ctx f y b st.swap hs2) := by
  simp only [unify, unifyCore, isKindB, isFaB, isHoleB, opTag]
  simp only [Bool.or_self, Bool.false_or, if_false]
  cases h1 : unify ctx f a x s.swap hs with
  | ok b1 st hs2 =>
      cases b1 with
      | true =>
          constructor
          · intro h
            exact ⟨st, hs2, rfl, h⟩
          · rintro ⟨st', hs2', heq, h⟩
            cases heq
            exact h
      | false =>
          constructor
          · rintro ⟨st', hs2', h⟩
            simp [resTrue] at h
          · rintro ⟨st', hs2', heq, _⟩
            cases heq
  | err =>
      constructor
      · rintro ⟨st', hs2', h⟩
        simp at h
      · rintro ⟨st', hs2', heq, _⟩
        cases heq
  | spin =>
      constructor
      · rintro ⟨st', hs2', h⟩
        simp at h
      · rintro ⟨st', hs2', heq, _⟩
        cases heq

theorem c4_fun_contravariant_unify_witness :
    resTrue (unify ctxEmpty 3 (.fn (.ref 1) (.ref 2)) (.fn (.ref 1) (.ref 2))
      UState.empty []) :=
  (c4_fun_contravariant_unify ctxEmpty 2 (.ref 1) (.ref 2) (.ref 1) (.ref 2)
      UState.empty []).mpr
    ⟨UState.empty.swap, [], rfl, ⟨UState.empty.swap.swap, [], rfl⟩⟩

/-- Claim C5: the spec requires that unifying a hole with a concrete type
succeeds and assigns the hole.  The code instead reaches
`throw Error('todo')` in the one-sided hole case: evaluated at `Hole 0`
versus `Ref 1` (in both orientations) `unify` throws. -/
theorem c5_hole_vs_concrete_throws :
    unify ctxEmpty 5 (.hole 0) (.ref 1) UState.empty [] = .err ∧
    unify ctxEmpty 5 (.ref 1) (.hole 0) UState.empty [] = .err := ⟨rfl, rfl⟩

/-- Claim C6: `instantiate` on a constraint-carrying parameter returns true
if and only if, for every constraint, the two-level impl index has an entry
keyed by the constraint's canonical code and the candidate type's canonical
code. -/
theorem c6_instantiate_constraints (ctx : TCtx) (holes : Holes) (f : Nat)
    (cs : List TL) (t : TL) (ps : List TParam) (tc : List Nat)
    (htc : encode (compile t) = some tc) :
    instantiate ctx holes f (Sum.inr cs) t ps = some true ↔
      ∀ c ∈ cs, ∃ trc, encode (compile c) = some trc ∧
        (implLookup ctx trc tc).isSome = true := by
  simp only [instantiate, htc]
  induction cs with
  | nil => simp [instantiateConstrs]
  | cons c rest ih =>
      simp only [instantiateConstrs]
      cases hc : encode (compile c) with
      | none => simp [hc]
      | some trc =>
          cases hl : implLookup ctx trc tc with
          | none => simp [hc, hl]
          | some w => simp [hc, hl, ih]

theorem c6_instantiate_constraints_witness :
    instantiate ctxImpl [] 3 (Sum.inr [TL.ref 9]) (.ref 1) [] = some true :=
  (c6_instantiate_constraints ctxImpl [] 3 [TL.ref 9] (.ref 1) [] [5, 1] rfl).mpr
    (by
      intro c hc
      simp at hc
      subst hc
      exact ⟨[5, 9], rfl, rfl⟩)

/-- Claim C7, counterexample: a second `defineImpl` whose trait and type
canonicalize to the same pair of codes does not raise an error — it
succeeds and the stored impl is the second one (`22` replaces `11`). -/
theorem c7_defineImpl_counterexample :
    ((defineImpl ctxEmpty (.ref 1) (.ref 2) 11).bind fun c1 =>
        defineImpl c1 (.ref 1) (.ref 2) 22).isSome = true ∧
    ((defineImpl ctxEmpty (.ref 1) (.ref 2) 11).bind fun c1 =>
        (defineImpl c1 (.ref 1) (.ref 2) 22).map fun c2 =>
          implLookup c2 [5, 2] [5, 1]) = some (some 22) := ⟨rfl, rfl⟩

/-- Claim C7, amended: after a successful `defineImpl`, a second
`defineImpl` with the same type and trait succeeds as well and silently
replaces the stored impl with the new one; no overlap error exists in the
code. -/
theorem c7_defineImpl_overwrites (ctx c1 : TCtx) (t tr : TL) (i1 i2 : Nat)
    (h : defineImpl ctx t tr i1 = some c1) :
    ∃ c2 ttc trtc, defineImpl c1 t tr i2 = some c2 ∧
      encode (compile t) = some ttc ∧ encode (compile tr) = some trtc ∧
      implLookup c2 trtc ttc = some i2 := by
  unfold defineImpl at h ⊢
  cases ht : encode (compile t) with
  | none => rw [ht] at h; cases h
  | some ttc =>
      cases htr : encode (compile tr) with
      | none => rw [ht, htr] at h; cases h
      | some trtc =>
          rw [ht, htr] at h
          simp only [Option.some.injEq] at h
          refine ⟨_, ttc, trtc, rfl, rfl, rfl, ?_⟩
          subst h
          simp only [implLookup]
          rw [lookup_mapSet_self]
          simp only [Option.bind_some, Option.some_bind]
          rw [lookup_mapSet_self]

theorem c7_defineImpl_overwrites_witness :
    ∃ c2 ttc trtc,
      defineImpl ⟨[], [([5, 2], [([5, 1], 11)])]⟩ (.ref 1) (.ref 2) 22 = some c2 ∧
      encode (compile (TL.ref 1)) = some ttc ∧
      encode (compile (TL.ref 2)) = some trtc ∧
      implLookup c2 trtc ttc = some 22 :=
  c7_defineImpl_overwrites ctxEmpty _ (.ref 1) (.ref 2) 11 22 rfl

end TypeLangM

namespace TypeAstM

theorem encEach_cons_none {rec : EncFn} {e : TA} {rest : List TA} {d : Nat} {b : Bnd}
    (hr : rec e d b = none) : encEach rec (e :: rest) d b = none := by
  simp [encEach, hr]

theorem encEach_cons_some {rec : EncFn} {e : TA} {rest : List TA} {d : Nat} {b : Bnd}
    {l : List Nat} {bb : Bnd} (hr : rec e d b = some (l, bb)) :
    encEach rec (e :: rest) d b =
      (encEach rec rest d bb).map fun p => (l :: p.1, p.2) := by
  simp [encEach, hr]

theorem encodeFunGo_cons2_none {rec : EncFn} {pfx : Nat} {e e2 : TA} {rest : List TA}
    {d : Nat} {b : Bnd} (hr : rec e d b = none) :
    encodeFunGo rec pfx (e :: e2 :: rest) d b = none := by
  simp [encodeFunGo, hr]

theorem encodeFunGo_cons2_some {rec : EncFn} {pfx : Nat} {e e2 : TA} {rest : List TA}
    {d : Nat} {b : Bnd} {l : List Nat} {bb : Bnd} (hr : rec e d b = some (l, bb)) :
    encodeFunGo rec pfx (e :: e2 :: rest) d b =
      (encodeFunGo rec pfx (e2 :: rest) d bb).map fun p => (pfx :: (l ++ p.1), p.2) := by
  simp [encodeFunGo, hr]

theorem encEach_length (rec : EncFn) : ∀ (es : List TA) (d : Nat) (b : Bnd)
    (ls : List (List Nat)) (b2 : Bnd),
    encEach rec es d b = some (ls, b2) → ls.length = es.length
  | [], d, b, ls, b2 => by
      intro h
      simp [encEach] at h
      simp [h.1.symm]
  | e :: rest, d, b, ls, b2 => by
      intro h
      rcases hr : rec e d b with _ | ⟨l, bb⟩
      · rw [encEach_cons_none hr] at h
        cases h
      · rw [encEach_cons_some hr] at h
        rcases Option.map_eq_some'.mp h with ⟨⟨ls0, b3⟩, hrest, hmap⟩
        cases hmap
        simp [encEach_length rec rest d bb ls0 b3 hrest]

theorem encodeFunGo_eq (rec : EncFn) (pfx : Nat) : ∀ (es : List TA) (d : Nat) (b : Bnd),
    es ≠ [] →
    encodeFunGo rec pfx es d b =
      (encEach rec es d b).map fun p =>
        ((p.1.dropLast.map fun l => pfx :: l).flatten ++ p.1.getLastD [], p.2)
  | [], _, _, h => absurd rfl h
  | [e], d, b, _ => by
      rcases hr : rec e d b with _ | ⟨l, bb⟩
      · rw [encEach_cons_none hr]
        simp [encodeFunGo, hr]
      · rw [encEach_cons_some hr]
        simp [encodeFunGo, hr, encEach]
  | e :: e2 :: rest, d, b, _ => by
      rcases hr : rec e d b with _ | ⟨l, bb⟩
      · rw [encodeFunGo_cons2_none hr, encEach_cons_none hr]
        simp
      · rw [encodeFunGo_cons2_some hr, encEach_cons_some hr,
            encodeFunGo_eq rec pfx (e2 :: rest) d bb (by simp)]
        rcases hrest : encEach rec (e2 :: rest) d bb with _ | ⟨ls0, b3⟩
        · simp [hrest]
        · have hlen := encEach_length rec (e2 :: rest) d bb ls0 b3 hrest
          rcases ls0 with _ | ⟨l0, ls1⟩
          · simp at hlen
          · simp [List.dropLast_cons₂, List.getLastD_cons]

/-- Claim C8, counterexample: encoding the three-component function
`Fun (Ref 1) (Ref 2) (Ref 3)` emits `[6, 4, 1, 6, 4, 2, 4, 3]` — the second
`Fun` opcode (6) appears after the encoding of the first component `[4, 1]`,
not before it, so the claimed layout (all n-1 `Fun` opcodes first,
`[6, 6, 4, 1, 4, 2, 4, 3]`) is wrong: the first two emitted units are not
`[6, 6]`. -/
theorem c8_encodeFun_counterexample :
    encA 10 (.fnN [.ref 1, .ref 2, .ref 3]) 0 [] =
      some ([6, 4, 1, 6, 4, 2, 4, 3], []) ∧
    encodeFun (encA 9) 6 [TA.ref 1, TA.ref 2, TA.ref 3] 0 [] =
      some ([6, 4, 1, 6, 4, 2, 4, 3], []) ∧
    [6, 4, 1, 6, 4, 2, 4, 3] ≠ [6, 6, 4, 1, 4, 2, 4, 3] ∧
    List.take 2 [6, 4, 1, 6, 4, 2, 4, 3] ≠ [6, 6] :=
  ⟨rfl, rfl, by decide, by decide⟩

/-- Claim C8, amended: for a function type with components x1 ... xn
(n >= 2), `encodeFun` emits, for each of the first n-1 components, one
`Fun` opcode immediately followed by that component's encoding, and then
the final component's encoding — the curried right-nested layout, with the
`Fun` opcodes interleaved between the component encodings rather than all
preceding the first operand. -/
theorem c8_encodeFun_interleaved (f : Nat) (es : List TA) (d : Nat) (b : Bnd)
    (h2 : 2 ≤ es.length) :
    encodeFun (encA f) 6 es d b =
      (encEach (encA f) es d b).map fun p =>
        ((p.1.dropLast.map fun l => 6 :: l).flatten ++ p.1.getLastD [], p.2) := by
  unfold encodeFun
  rw [if_neg (by omega)]
  exact encodeFunGo_eq (encA f) 6 es d b
    (by cases es with | nil => simp at h2 | cons a l => simp)

theorem c8_encodeFun_interleaved_witness :
    encodeFun (encA 5) 6 [TA.ref 1, TA.ref 2] 0 [] =
      (encEach (encA 5) [TA.ref 1, TA.ref 2] 0 []).map fun p =>
        ((p.1.dropLast.map fun l => 6 :: l).flatten ++ p.1.getLastD [], p.2) :=
  c8_encodeFun_interleaved 5 [TA.ref 1, TA.ref 2] 0 [] (by decide)

end TypeAstM

namespace ScopeTreeM

theorem ctxOf_lt (w : World) (c : Nat) (cd : Ctx) (h : ctxOf w c = some cd) :
    c < w.ctxs.length := by
  by_contra hc
  rw [ctxOf, List.get?_eq_none.mpr (by omega)] at h
  cases h

theorem ctxOf_setCtx_self (w : World) (c : Nat) (cd : Ctx) (h : c < w.ctxs.length) :
    ctxOf (setCtx w c cd) c = some cd := by
  simp [ctxOf, setCtx, List.get?_eq_getElem?, List.getElem?_set_eq_of_lt, h]

theorem defineE_eq (w : World) (c nid : Nat) (cd : Ctx) (nd : Node)
    (hc : ctxOf w c = some cd) (hn : nodeOf w nid = some nd) :
    defineE w c nid =
      if cd.entities.lookup nd.id = some nid then .ok w
      else if isValueKind nd.t = true then
        if (cd.valueNames.lookup nd.name).isSome = true then .error ()
        else .ok (setCtx w c
          { cd with
            entities := TypeLangM.mapSet nd.id nid cd.entities
            valueNames := TypeLangM.mapSet nd.name nid cd.valueNames
            children := TypeLangM.mapSet nid c cd.children })
      else if isTypeKind nd.t = true then
        if (cd.typeNames.lookup nd.name).isSome = true then .error ()
        else .ok (setCtx w c
          { cd with
            entities := TypeLangM.mapSet nd.id nid cd.entities
            typeNames := TypeLangM.mapSet nd.name nid cd.typeNames
            children := TypeLangM.mapSet nid c cd.children })
      else .ok w := by
  unfold defineE
  rw [hc, hn]

theorem kinds_disjoint (k : NKind) : ¬(isValueKind k = true ∧ isTypeKind k = true) := by
  cases k <;> simp [isValueKind, isTypeKind]

/-- Claim C10: calling `define` twice on the same context with the identical
entity object succeeds — the second call returns without error and leaves
the context unchanged even though the name is already registered — and the
redeclaration error is triggered exactly when the stored entity at the id
is not the identical object and the entity's name is already present in the
namespace (value or type) matching the entity's tag. -/
theorem c10_define_idempotent (w : World) (c nid : Nat) (cd : Ctx) (nd : Node)
    (hc : ctxOf w c = some cd) (hn : nodeOf w nid = some nd) :
    (∀ w2, defineE w c nid = .ok w2 → defineE w2 c nid = .ok w2) ∧
    (defineE w c nid = .error () ↔
      cd.entities.lookup nd.id ≠ some nid ∧
      ((isValueKind nd.t = true ∧ (cd.valueNames.lookup nd.name).isSome = true) ∨
       (isTypeKind nd.t = true ∧ (cd.typeNames.lookup nd.name).isSome = true))) := by
  have hlt := ctxOf_lt w c cd hc
  rw [defineE_eq w c nid cd nd hc hn]
  by_cases hid : cd.entities.lookup nd.id = some nid
  · rw [if_pos hid]
    constructor
    · intro w2 h
      cases h
      rw [defineE_eq w c nid cd nd hc hn, if_pos hid]
    · simp [hid]
  · rw [if_neg hid]
    by_cases hv : isValueKind nd.t = true
    · rw [if_pos hv]
      have ht : ¬isTypeKind nd.t = true := fun ht => kinds_disjoint nd.t ⟨hv, ht⟩
      by_cases hvn : (cd.valueNames.lookup nd.name).isSome = true
      · rw [if_pos hvn]
        constructor
        · intro w2 h
          cases h
        · simp [hid, hv, hvn]
      · rw [if_neg hvn]
        constructor
        · intro w2 h
          cases h
          rw [defineE_eq _ c nid
            { cd with
              entities := TypeLangM.mapSet nd.id nid cd.entities
              valueNames := TypeLangM.mapSet nd.name nid cd.valueNames
              children := TypeLangM.mapSet nid c cd.children } nd
            (ctxOf_setCtx_self w c _ hlt) hn]
          rw [if_pos (TypeLangM.lookup_mapSet_self nd.id nid cd.entities)]
        · simp [hid, hv, hvn, ht]
    · rw [if_neg hv]
      by_cases ht : isTypeKind nd.t = true
      · rw [if_pos ht]
        by_cases htn : (cd.typeNames.lookup nd.name).isSome = true
        · rw [if_pos htn]
          constructor
          · intro w2 h
            cases h
          · simp [hid, hv, ht, htn]
        · rw [if_neg htn]
          constructor
          · intro w2 h
            cases h
            rw [defineE_eq _ c nid
              { cd with
                entities := TypeLangM.mapSet nd.id nid cd.entities
                typeNames := TypeLangM.mapSet nd.name nid cd.typeNames
                children := TypeLangM.mapSet nid c cd.children } nd
              (ctxOf_setCtx_self w c _ hlt) hn]
            rw [if_pos (TypeLangM.lookup_mapSet_self nd.id nid cd.entities)]
          · simp [hid, hv, ht, htn]
      · rw [if_neg ht]
        constructor
        · intro w2 h
          cases h
          rw [defineE_eq w c nid cd nd hc hn, if_neg hid, if_neg hv, if_neg ht]
        · simp [hid, hv, ht]

theorem c10_define_idempotent_witness :
    defineE wDef1 0 0 = .ok wDef1 :=
  (c10_define_idempotent wDef0 0 0 ⟨none, none, 0, [], [], [], []⟩
      ⟨.letE, 0, "x", none, [], []⟩ rfl rfl).1 wDef1 rfl

theorem defineE_len (w : World) (c nid : Nat) (w2 : World)
    (h : defineE w c nid = .ok w2) :
    w2.ctxs.length = w.ctxs.length := by
  cases hcd : ctxOf w c with
  | none =>
      unfold defineE at h
      cases hnd : nodeOf w nid <;> simp only [hcd, hnd] at h <;> cases h
  | some cd =>
      cases hnd : nodeOf w nid with
      | none =>
          unfold defineE at h
          simp only [hcd, hnd] at h
          cases h
      | some nd =>
          rw [defineE_eq w c nid cd nd hcd hnd] at h
          by_cases hid : cd.entities.lookup nd.id = some nid
          · rw [if_pos hid] at h
            cases h
            rfl
          · rw [if_neg hid] at h
            by_cases hv : isValueKind nd.t = true
            · rw [if_pos hv] at h
              by_cases hvn : (cd.valueNames.lookup nd.name).isSome = true
              · rw [if_pos hvn] at h; cases h
              · rw [if_neg hvn] at h
                cases h
                simp [setCtx]
            · rw [if_neg hv] at h
              by_cases ht : isTypeKind nd.t = true
              · rw [if_pos ht] at h
                by_cases htn : (cd.typeNames.lookup nd.name).isSome = true
                · rw [if_pos htn] at h; cases h
                · rw [if_neg htn] at h
                  cases h
                  simp [setCtx]
              · rw [if_neg ht] at h
                cases h
                rfl

theorem defineAll_len (w : World) (c : Nat) : ∀ (l : List Nat) (w2 : World),
    defineAll w c l = .ok w2 → w2.ctxs.length = w.ctxs.length
  | [], w2 => by
      intro h
      cases h
      rfl
  | nid :: rest, w2 => by
      intro h
      simp only [defineAll] at h
      cases hd : defineE w c nid with
      | error e => rw [hd] at h; cases h
      | ok w3 =>
          rw [hd] at h
          exact (defineAll_len w3 c rest w2 h).trans (defineE_len w c nid w3 hd)

/-- Claim C9, amended: in the scope-tree Context of part_000 a successful
`enter` is idempotent — a second `enter` with the same context and scope
node returns the identical context reference and leaves the world
unchanged, because `findContext` now hits the `_children` cache; no second
context is constructed there.  (The newer `Context.enter` of
src/context.ts, by contrast, constructs a fresh context on every call: see
the counterexample.) -/
theorem c9_enter_cached (w : World) (c nid r : Nat) (w2 : World) (f : Nat)
    (h : enter w c nid (f + 1) = .ok (r, w2)) :
    enter w2 c nid (f + 1) = .ok (r, w2) := by
  unfold enter at h ⊢
  cases hfc : findContext w c nid (f + 1) (some nid) with
  | some r0 =>
      rw [hfc] at h
      cases h
      rw [hfc]
  | none =>
      rw [hfc] at h
      cases hcd : ctxOf w c with
      | none => cases hnd : nodeOf w nid <;> simp only [hcd, hnd] at h <;> cases h
      | some cd =>
          cases hnd : nodeOf w nid with
          | none => simp only [hcd, hnd] at h; cases h
          | some nd =>
              simp only [hcd, hnd] at h
              have hlt := ctxOf_lt w c cd hcd
              have hroot : ¬cd.root = some nid := by
                intro hr
                have hsome : findContext w c nid (f + 1) (some nid) = some c := by
                  simp [findContext, hcd, hr]
                rw [hsome] at hfc
                cases hfc
              cases hk : nd.t with
              | block =>
                  rw [hk] at h
                  cases h
                  have hfind2 : findContext
                      (setCtx { w with ctxs := w.ctxs ++ [⟨some nid, some c, cd.depth, [], [], [], []⟩] } c
                        { cd with children := TypeLangM.mapSet nid w.ctxs.length cd.children })
                      c nid (f + 1) (some nid) = some w.ctxs.length := by
                    have hc2 := ctxOf_setCtx_self
                      { w with ctxs := w.ctxs ++ [⟨some nid, some c, cd.depth, [], [], [], []⟩] } c
                      { cd with children := TypeLangM.mapSet nid w.ctxs.length cd.children }
                      (by simp; omega)
                    simp only [findContext, hc2, hroot, if_false]
                    rw [TypeLangM.lookup_mapSet_self]
                  rw [hfind2]
              | funN =>
                  rw [hk] at h
                  cases hda : defineAll
                      { w with ctxs := w.ctxs ++ [⟨some nid, some c, cd.depth, [], [], [], []⟩] }
                      w.ctxs.length (nd.generic ++ nd.params) with
                  | error e => rw [hda] at h; cases h
                  | ok w3 =>
                      rw [hda] at h
                      cases h
                      have hlen3 := defineAll_len _ _ _ _ hda
                      have hfind2 : findContext
                          (setCtx w3 c
                            { cd with children := TypeLangM.mapSet nid w.ctxs.length cd.children })
                          c nid (f + 1) (some nid) = some w.ctxs.length := by
                        have hc2 := ctxOf_setCtx_self w3 c
                          { cd with children := TypeLangM.mapSet nid w.ctxs.length cd.children }
                          (by rw [hlen3]; simp; omega)
                        simp only [findContext, hc2, hroot, if_false]
                        rw [TypeLangM.lookup_mapSet_self]
                      rw [hfind2]
              | forallN =>
                  rw [hk] at h
                  cases hda : defineAll
                      { w with ctxs := w.ctxs ++ [⟨some nid, some c, cd.depth + 1, [], [], [], []⟩] }
                      w.ctxs.length nd.params with
                  | error e => rw [hda] at h; cases h
                  | ok w3 =>
                      rw [hda] at h
                      cases h
                      have hlen3 := defineAll_len _ _ _ _ hda
                      have hfind2 : findContext
                          (setCtx w3 c
                            { cd with children := TypeLangM.mapSet nid w.ctxs.length cd.children })
                          c nid (f + 1) (some nid) = some w.ctxs.length := by
                        have hc2 := ctxOf_setCtx_self w3 c
                          { cd with children := TypeLangM.mapSet nid w.ctxs.length cd.children }
                          (by rw [hlen3]; simp; omega)
                        simp only [findContext, hc2, hroot, if_false]
                        rw [TypeLangM.lookup_mapSet_self]
                      rw [hfind2]
              | letE => rw [hk] at h; cases h
              | param => rw [hk] at h; cases h
              | typeAlias => rw [hk] at h; cases h
              | typeData => rw [hk] at h; cases h
              | typeParamHkt => rw [hk] at h; cases h
              | typeParamImpl => rw [hk] at h; cases h

theorem c9_enter_cached_witness :
    enter wEnter1 0 5 1 = .ok (1, wEnter1) :=
  c9_enter_cached wEnter0 0 5 1 wEnter1 0 rfl

end ScopeTreeM

namespace CtxGen2M

/-- Claim C9, counterexample (the `Context.enter` of src/context.ts): two
successive `enter` calls on the same context with the same domain node
return distinct context instances, and a second context object is
constructed for the node (the store grows from one context to three). -/
theorem c9_enter_counterexample :
    (enterB [⟨none, []⟩] 0 dFa).1 ≠ (enterB (enterB [⟨none, []⟩] 0 dFa).2 0 dFa).1 ∧
    (enterB (enterB [⟨none, []⟩] 0 dFa).2 0 dFa).2.length = 3 := by
  constructor
  · decide
  · decide

end CtxGen2M
